import Mathlib

/-!
Verification of the beanstalk client protocol engine.

Byte strings are modelled as `List Nat` (byte values); all literals in the
protocol are ASCII, so `bytes` maps a Lean string literal to its byte list.
Machine integers are modelled as `Nat` with the source's explicit overflow
guards carried over (`U64MAX`, `maxSize`).
-/

namespace Beanstalk

def bytes (s : String) : List Nat := s.data.map Char.toNat

/-- Maximum value of a 64-bit unsigned integer, `^uint64(0)` in the source. -/
def U64MAX : Nat := 18446744073709551615

/-- The constant `maxSize = uint64(^uint(0) >> 1)` from parse.go on a 64-bit
platform: the maximum signed integer. -/
def maxSize : Nat := 9223372036854775807

def isDigit (c : Nat) : Bool := decide (48 ≤ c) && decide (c ≤ 57)

/-- Decimal value of a digit string (each byte contributing `c - '0'`). -/
def decValue (s : List Nat) : Nat := s.foldl (fun a c => a * 10 + (c - 48)) 0

/-- Embedding of `parseUint` from parse.go, with the running value `v`
as an accumulator; returns the parsed value and the number of bytes
consumed.  The guard `v ≤ (U64MAX - d) / 10` is the source's overflow
check: the loop stops rather than wrapping. -/
def parseUintA (v : Nat) : List Nat → Nat × Nat
  | [] => (v, 0)
  | c :: s =>
    if isDigit c ∧ v ≤ (U64MAX - (c - 48)) / 10 then
      let r := parseUintA (v * 10 + (c - 48)) s
      (r.1, r.2 + 1)
    else (v, 0)

def parseUint (s : List Nat) : Nat × Nat := parseUintA 0 s

/-- Index of the last occurrence of byte `c` in `s`
(`bytes.LastIndex(s, space)` in the source). -/
def lastIndexOf : List Nat → Nat → Option Nat
  | [], _ => none
  | a :: rest, c =>
    match lastIndexOf rest c with
    | some i => some (i + 1)
    | none => if a = c then some 0 else none

/-- Closed taxonomy of server error kinds from errors.go, plus the
open-ended unknown-response carrying the offending line. -/
inductive RespError
  | badFormat
  | buried
  | deadline
  | draining
  | internal
  | jobTooBig
  | noCRLF
  | notFound
  | notIgnored
  | oom
  | timeout
  | unknownCmd
  | unknown (line : List Nat)
deriving DecidableEq

def resBadFormat : List Nat := bytes ("BAD_FORMAT")

def resBuried : List Nat := bytes ("BURIED")

def resDeadline : List Nat := bytes ("DEADLINE_SOON")

def resDraining : List Nat := bytes ("DRAINING")

def resInternal : List Nat := bytes ("INTERNAL_ERROR")

def resJobTooBig : List Nat := bytes ("JOB_TOO_BIG")

def resNoCRLF : List Nat := bytes ("EXPECTED_CRLF")

def resNotFound : List Nat := bytes ("NOT_FOUND")

def resNotIgnored : List Nat := bytes ("NOT_IGNORED")

def resOOM : List Nat := bytes ("OUT_OF_MEMORY")

def resTimeout : List Nat := bytes ("TIMED_OUT")

def resUnknownCmd : List Nat := bytes ("UNKNOWN_COMMAND")

/-- Embedding of `findRespError` from errors.go: switch on the first byte,
then exact byte-for-byte comparison against the reserved words; everything
else becomes an unknown response carrying the line. -/
def findRespError (s : List Nat) : RespError :=
  match s.head? with
  | none => .unknown s
  | some c =>
    if c = 66 then
      if s = resBuried then .buried
      else if s = resBadFormat then .badFormat
      else .unknown s
    else if c = 68 then
      if s = resDeadline then .deadline
      else if s = resDraining then .draining
      else .unknown s
    else if c = 69 then
      if s = resNoCRLF then .noCRLF else .unknown s
    else if c = 73 then
      if s = resInternal then .internal else .unknown s
    else if c = 74 then
      if s = resJobTooBig then .jobTooBig else .unknown s
    else if c = 78 then
      if s = resNotFound then .notFound
      else if s = resNotIgnored then .notIgnored
      else .unknown s
    else if c = 79 then
      if s = resOOM then .oom else .unknown s
    else if c = 84 then
      if s = resTimeout then .timeout else .unknown s
    else if c = 85 then
      if s = resUnknownCmd then .unknownCmd else .unknown s
    else .unknown s

/-- The reserved words and their error kinds, for stating classification. -/
def respTable : List (List Nat × RespError) :=
  [(resBadFormat, .badFormat), (resBuried, .buried), (resDeadline, .deadline),
   (resDraining, .draining), (resInternal, .internal), (resJobTooBig, .jobTooBig),
   (resNoCRLF, .noCRLF), (resNotFound, .notFound), (resNotIgnored, .notIgnored),
   (resOOM, .oom), (resTimeout, .timeout), (resUnknownCmd, .unknownCmd)]

/-- Embedding of `parseSize` from parse.go: split off the trailing
space-separated decimal byte count. -/
def parseSize (s : List Nat) : Except RespError (List Nat × Nat) :=
  match lastIndexOf s 32 with
  | none => .error (findRespError s)
  | some i =>
    let b := s.drop (i + 1)
    let r := parseUint b
    if r.2 = 0 ∨ r.2 ≠ b.length ∨ maxSize < r.1 then .error (.unknown s)
    else .ok (s.take i, r.1)

/-- The integer-scanning loop of `Conn.scan` from conn.go: for each of the
`n` expected integers, require a space then at least one digit, read the
digit run with `parseUint`, and continue one byte past the run.  Nothing
after the last expected integer is examined. -/
def scanLoop (input : List Nat) : List Nat → Nat → Except RespError (List Nat)
  | _, 0 => .ok []
  | s, n + 1 =>
    match s with
    | [] => .error (.unknown input)
    | c :: rest =>
      if c ≠ 32 then .error (.unknown input)
      else
        let r := parseUint rest
        if r.2 = 0 then .error (.unknown input)
        else
          match scanLoop input (rest.drop r.2) n with
          | .ok vs => .ok (r.1 :: vs)
          | .error e => .error e

/-- Embedding of `Conn.scan` from conn.go: check the expected success word
as a byte prefix of the line, then scan the expected number of integers. -/
def scan (input : List Nat) (cmd : List Nat) (n : Nat) : Except RespError (List Nat) :=
  if cmd.isPrefixOf input then scanLoop input (input.drop cmd.length) n
  else .error (findRespError input)

/-- Allowed characters in a queue name, from name.go (`NameChars`). -/
def NameChars : List Nat :=
  bytes ("\\-+/;.$_()0123456789ABCDEFGHIJKLMNOPQRSTUVWXYZabcdefghijklmnopqrstuvwxyz")

inductive NameErr
  | empty
  | badChar
  | tooLong
deriving DecidableEq

/-- Embedding of `checkName` (name.go): a name is valid iff it is
non-empty, shorter than 200 bytes, and drawn from `NameChars`. -/
def checkName (s : List Nat) : Option NameErr :=
  if s.length = 0 then some .empty
  else if 200 ≤ s.length then some .tooLong
  else if ¬ (s.all (fun c => decide (c ∈ NameChars))) then some .badChar
  else none

structure Tube where
  Name : List Nat
deriving DecidableEq

/-- A `TubeSet`'s name map; the list records one iteration order of the
Go map's keys. -/
structure TubeSet where
  Name : List (List Nat)
deriving DecidableEq

/-- One line buffered for the wire: a reconciliation command
(`use` / `watch` / `ignore` plus a queue name) or the target command line
of a call (op word, optional tube-name argument, numeric arguments,
optional body). -/
inductive WireCmd
  | use (name : List Nat)
  | watch (name : List Nat)
  | ignore (name : List Nat)
  | target (op : List Nat) (tname : List Nat) (args : List Nat) (body : Option (List Nat))
deriving DecidableEq

/-- The connection's session state and outbound write buffer: the
currently used queue name, the watched queue-name set (a duplicate-free
list standing for the Go map's key set), and the not-yet-flushed
command lines. -/
structure Conn where
  used : List Nat
  watched : List (List Nat)
  buf : List WireCmd
deriving DecidableEq

/-- State of a connection fresh from `NewConn`. -/
def newConn : Conn :=
  { used := bytes ("default"), watched := [bytes ("default")], buf := [] }

/-- The first loop of `adjustTubes`: walk the intended watched names in
iteration order; for each name not currently watched, validate it (a
failure stops the walk at once, keeping the additions made so far), emit
a watch command, and add it to the watched set. -/
def watchLoop (watched : List (List Nat)) :
    List (List Nat) → List (List Nat) × List WireCmd × Option NameErr
  | [] => (watched, [], none)
  | s :: rest =>
    if s ∈ watched then watchLoop watched rest
    else
      match checkName s with
      | some e => (watched, [], some e)
      | none =>
        match watchLoop (watched ++ [s]) rest with
        | (w, cmds, err) => (w, WireCmd.watch s :: cmds, err)

/-- The second loop of `adjustTubes`: for every watched name absent from
the intended set, emit an ignore command and drop it. -/
def ignoreLoop : List (List Nat) → List (List Nat) → List (List Nat) × List WireCmd
  | [], _ => ([], [])
  | s :: rest, intent =>
    match ignoreLoop rest intent with
    | (w, cmds) =>
      if s ∈ intent then (s :: w, cmds)
      else (w, WireCmd.ignore s :: cmds)

/-- The first block of `adjustTubes`: when the intended used queue
differs from the remembered one, validate it, emit a `use` command and
update the remembered name. -/
def useStep (c : Conn) (t : Option Tube) : Conn × List WireCmd × Option NameErr :=
  match t with
  | some tu =>
    if tu.Name ≠ c.used then
      match checkName tu.Name with
      | some e => (c, [], some e)
      | none => ({ c with used := tu.Name }, [WireCmd.use tu.Name], none)
    else (c, [], none)
  | none => (c, [], none)

/-- Embedding of `Conn.adjustTubes` (conn.go): reconcile the remembered
used name and watched set against the caller's intent, returning the
updated session state, the reconciliation command lines printed to the
buffer, and the validation error if any step failed. -/
def adjustTubes (c : Conn) (t : Option Tube) (ts : Option TubeSet) :
    Conn × List WireCmd × Option NameErr :=
  match useStep c t with
  | (c1, cmds1, some e) => (c1, cmds1, some e)
  | (c1, cmds1, none) =>
    match ts with
    | none => (c1, cmds1, none)
    | some tss =>
      match watchLoop c1.watched tss.Name with
      | (w2, cmds2, some e) => ({ c1 with watched := w2 }, cmds1 ++ cmds2, some e)
      | (w2, cmds2, none) =>
        match ignoreLoop w2 tss.Name with
        | (w3, cmds3) => ({ c1 with watched := w3 }, cmds1 ++ cmds2 ++ cmds3, none)

/-- Embedding of `Conn.cmdTube` (conn.go): reconcile, and on a validation
error return at once — the reconciliation lines stay in the buffer,
nothing is flushed.  On success the target command line is printed and
the whole buffer is flushed; the second component is what was
transmitted. -/
def cmdTube (c : Conn) (t : Option Tube) (ts : Option TubeSet) (body : Option (List Nat))
    (op tname : List Nat) (args : List Nat) : Conn × List WireCmd × Option NameErr :=
  match adjustTubes c t ts with
  | (c1, cmds, some e) => ({ c1 with buf := c1.buf ++ cmds }, [], some e)
  | (c1, cmds, none) =>
    let out := c1.buf ++ cmds ++ [WireCmd.target op tname args body]
    ({ c1 with buf := [] }, out, none)

/-- Connection states reachable from `NewConn` by any sequence of command
calls. -/
inductive Reachable : Conn → Prop
  | init : Reachable newConn
  | step (c : Conn) (t : Option Tube) (ts : Option TubeSet) (body : Option (List Nat))
      (op tname : List Nat) (args : List Nat) :
      Reachable c → Reachable (cmdTube c t ts body op tname args).1

/-- Connection states reachable from `NewConn` by command calls whose
intended watched set, when supplied, is non-empty. -/
inductive ReachableNE : Conn → Prop
  | init : ReachableNE newConn
  | step (c : Conn) (t : Option Tube) (ts : Option TubeSet) (body : Option (List Nat))
      (op tname : List Nat) (args : List Nat) :
      ReachableNE c → (∀ tss, ts = some tss → tss.Name ≠ []) →
      ReachableNE (cmdTube c t ts body op tname args).1

/-- Effect on the session state of one buffered command line, used to
relate the state adjustTubes leaves behind to the lines it printed. -/
def applyCmd (p : List Nat × List (List Nat)) (w : WireCmd) : List Nat × List (List Nat) :=
  match w with
  | .use n => (n, p.2)
  | .watch n => (p.1, p.2 ++ [n])
  | .ignore n => (p.1, p.2.filter (fun x => decide (x ≠ n)))
  | .target _ _ _ _ => p

def applyCmds (p : List Nat × List (List Nat)) (l : List WireCmd) : List Nat × List (List Nat) :=
  l.foldl applyCmd p

def isTargetCmd : WireCmd → Bool
  | .target _ _ _ _ => true
  | _ => false

/-- First index of a line-feed byte, for the line reader. -/
def findNl : List Nat → Option Nat
  | [] => none
  | c :: rest => if c = 10 then some 0 else (findNl rest).map (· + 1)

/-- Embedding of `Conn.readLine` (conn.go): consume the stream through the
first line feed and return the line with its two terminator bytes
stripped, together with the unread remainder. -/
def readLine (s : List Nat) : Option (List Nat × List Nat) :=
  match findNl s with
  | none => none
  | some j => some (((s.take (j + 1)).dropLast).dropLast, s.drop (j + 1))

def watchingB : List Nat := bytes ("WATCHING ")

def usingB : List Nat := bytes ("USING ")

/-- The acknowledgement-skipping loop at the head of `readRawResp`: read
lines, discarding those that begin with the `WATCHING ` / `USING `
markers.  Fuel is the stream length; each successful read consumes at
least one byte, so the fuel never runs out before the data does. -/
def readSkipAcksF : Nat → List Nat → Option (List Nat × List Nat)
  | 0, _ => none
  | fuel + 1, s =>
    match readLine s with
    | none => none
    | some (line, rest) =>
      if watchingB.isPrefixOf line ∨ usingB.isPrefixOf line then readSkipAcksF fuel rest
      else some (line, rest)

def readSkipAcks (s : List Nat) : Option (List Nat × List Nat) :=
  readSkipAcksF s.length s

inductive RWErr
  | io
  | resp (e : RespError)
deriving DecidableEq

/-- Embedding of `Conn.readRawResp` (conn.go): obtain the first
non-acknowledgement line; when a body is expected, split the declared
byte count off the header and consume exactly that many bytes plus the
two-byte terminator before returning. -/
def readRawResp (s : List Nat) (readBody : Bool) :
    Except RWErr (List Nat × Option (List Nat) × List Nat) :=
  match readSkipAcks s with
  | none => .error .io
  | some (line, rest) =>
    if readBody then
      match parseSize line with
      | .error e => .error (.resp e)
      | .ok (header, size) =>
        if size + 2 ≤ rest.length then
          .ok (header, some (rest.take size), rest.drop (size + 2))
        else .error .io
    else .ok (line, none, rest)

/-- Embedding of `Conn.readRespArgs` (conn.go): read the raw response —
which consumes any declared body in full — and only then check the header
against the expected word and integer count.  The second component is the
unread remainder of the stream. -/
def readRespArgs (s : List Nat) (readBody : Bool) (cmd : List Nat) (n : Nat) :
    Except RWErr (List Nat × Option (List Nat)) × List Nat :=
  match readRawResp s readBody with
  | .error e => (.error e, s)
  | .ok (header, body, rest) =>
    match scan header cmd n with
    | .error e => (.error (.resp e), rest)
    | .ok args => (.ok (args, body), rest)

/-! ### Lemmas about `parseUint` -/

theorem isDigit_iff {c : Nat} : isDigit c = true ↔ 48 ≤ c ∧ c ≤ 57 := by
  simp [isDigit]

theorem foldl_dec_ge (l : List Nat) : ∀ v : Nat,
    v ≤ l.foldl (fun a c => a * 10 + (c - 48)) v := by
  induction l with
  | nil => intro v; simp
  | cons c l ih =>
    intro v
    have h1 : v ≤ v * 10 + (c - 48) := by omega
    have h2 := ih (v * 10 + (c - 48))
    simpa [List.foldl_cons] using le_trans h1 h2

theorem parseUintA_spec (s : List Nat) : ∀ v : Nat,
    (parseUintA v s).2 ≤ s.length ∧
    (s.take (parseUintA v s).2).all isDigit = true ∧
    (parseUintA v s).1 = (s.take (parseUintA v s).2).foldl (fun a c => a * 10 + (c - 48)) v ∧
    ((parseUintA v s).2 = s.length ∨ isDigit (s.getD (parseUintA v s).2 0) = false ∨
      U64MAX < (parseUintA v s).1 * 10 + (s.getD (parseUintA v s).2 0 - 48)) := by
  induction s with
  | nil => intro v; simp [parseUintA]
  | cons c rest ih =>
    intro v
    by_cases h : isDigit c ∧ v ≤ (U64MAX - (c - 48)) / 10
    · have hu := ih (v * 10 + (c - 48))
      simp only [parseUintA, if_pos h]
      refine ⟨by simpa using hu.1, ?_, ?_, ?_⟩
      · simpa [List.take_succ_cons, List.all_cons, h.1] using hu.2.1
      · simpa [List.take_succ_cons, List.foldl_cons] using hu.2.2.1
      · rcases hu.2.2.2 with h1 | h2 | h3
        · exact Or.inl (by simpa using h1)
        · exact Or.inr (Or.inl (by simpa [List.getD_cons_succ] using h2))
        · exact Or.inr (Or.inr (by simpa [List.getD_cons_succ] using h3))
    · simp only [parseUintA, if_neg h]
      refine ⟨by simp, by simp, by simp, ?_⟩
      rcases not_and_or.mp h with hd | hle
      · exact Or.inr (Or.inl (by simpa [List.getD_cons_zero] using
          (Bool.not_eq_true _).mp hd))
      · by_cases hd : isDigit c = true
        · obtain ⟨hc1, hc2⟩ := isDigit_iff.mp hd
          have hx : (U64MAX - (c - 48)) / 10 < v := Nat.lt_of_not_le hle
          have hy : U64MAX - (c - 48) < v * 10 :=
            (Nat.div_lt_iff_lt_mul (by omega)).mp hx
          exact Or.inr (Or.inr (by simp [List.getD_cons_zero]; omega))
        · exact Or.inr (Or.inl (by simpa [List.getD_cons_zero] using
            (Bool.not_eq_true _).mp hd))

theorem parseUintA_digits_stop : ∀ (m : List Nat) (r : List Nat) (v : Nat),
    m.all isDigit = true →
    m.foldl (fun a c => a * 10 + (c - 48)) v ≤ U64MAX →
    (∀ c, r.head? = some c → isDigit c = false) →
    parseUintA v (m ++ r) = (m.foldl (fun a c => a * 10 + (c - 48)) v, m.length) := by
  intro m
  induction m with
  | nil =>
    intro r v _ _ hr
    cases r with
    | nil => simp [parseUintA]
    | cons c t =>
      have hc : isDigit c = false := hr c rfl
      simp [parseUintA, hc]
  | cons c m ih =>
    intro r v hall hle hr
    rw [List.all_cons, Bool.and_eq_true] at hall
    obtain ⟨hc, hm⟩ := hall
    obtain ⟨hc1, hc2⟩ := isDigit_iff.mp hc
    rw [List.foldl_cons] at hle
    have hfv := foldl_dec_ge m (v * 10 + (c - 48))
    have hguard : v ≤ (U64MAX - (c - 48)) / 10 := by
      rw [Nat.le_div_iff_mul_le (by omega : (0:Nat) < 10)]
      omega
    have hrec := ih r (v * 10 + (c - 48)) hm hle hr
    simp [parseUintA, hc, hguard, hrec, List.foldl_cons]

theorem parseUint_digits_stop (m r : List Nat) (hall : m.all isDigit = true)
    (hle : decValue m ≤ U64MAX) (hr : ∀ c, r.head? = some c → isDigit c = false) :
    parseUint (m ++ r) = (decValue m, m.length) :=
  parseUintA_digits_stop m r 0 hall hle hr

theorem parseUint_digits (m : List Nat) (hall : m.all isDigit = true)
    (hle : decValue m ≤ U64MAX) : parseUint m = (decValue m, m.length) := by
  have h := parseUint_digits_stop m [] hall hle (by intro c h; simp at h)
  simpa using h

theorem parseUint_props (s : List Nat) :
    (parseUint s).2 ≤ s.length ∧
    (s.take (parseUint s).2).all isDigit = true ∧
    (parseUint s).1 = decValue (s.take (parseUint s).2) ∧
    ((parseUint s).2 = s.length ∨ isDigit (s.getD (parseUint s).2 0) = false ∨
      U64MAX < (parseUint s).1 * 10 + (s.getD (parseUint s).2 0 - 48)) :=
  parseUintA_spec s 0

/-- C10: `parseUint(s)` returns a pair `(v, k)` such that the prefix
`s[0..k)` consists only of decimal digits, `v` is the exact value of that
digit prefix, and either `k` is the whole length, or `s[k]` is not a
digit, or appending the digit `s[k]` would push the value beyond
`2^64 - 1`; the value never wraps around, so an overlong numeral is
truncated at the last digit that fits rather than reported. -/
theorem parseUint_spec (s : List Nat) :
    (parseUint s).2 ≤ s.length ∧
    (s.take (parseUint s).2).all isDigit = true ∧
    (parseUint s).1 = decValue (s.take (parseUint s).2) ∧
    ((parseUint s).2 = s.length ∨ isDigit (s.getD (parseUint s).2 0) = false ∨
      U64MAX < (parseUint s).1 * 10 + (s.getD (parseUint s).2 0 - 48)) :=
  parseUint_props s

/-! ### Lemmas about `scan` -/

theorem isPrefixOf_append_self : ∀ (w tail : List Nat), w.isPrefixOf (w ++ tail) = true := by
  intro w
  induction w with
  | nil => intro tail; simp
  | cons a w ih => intro tail; simpa [List.isPrefixOf_cons₂] using ih tail

theorem scanLoop_tokens (input : List Nat) : ∀ (numerals : List (List Nat)) (extra : List Nat),
    (∀ m ∈ numerals, m ≠ [] ∧ m.all isDigit = true ∧ decValue m ≤ U64MAX) →
    (∀ c, extra.head? = some c → isDigit c = false) →
    scanLoop input ((numerals.map (fun m => 32 :: m)).flatten ++ extra) numerals.length =
      .ok (numerals.map decValue) := by
  intro numerals
  induction numerals with
  | nil => intro extra _ _; simp [scanLoop]
  | cons m ms ih =>
    intro extra hnum hextra
    obtain ⟨hm0, hmd, hmv⟩ := hnum m (by simp)
    have hrest : ∀ c, ((ms.map (fun m => 32 :: m)).flatten ++ extra).head? = some c →
        isDigit c = false := by
      cases ms with
      | nil => simpa using hextra
      | cons m2 t =>
        intro c hc
        simp [List.map_cons, List.flatten_cons, List.cons_append] at hc
        rw [← hc]
        decide
    have hpu : parseUint (m ++ ((ms.map (fun m => 32 :: m)).flatten ++ extra)) =
        (decValue m, m.length) := parseUint_digits_stop m _ hmd hmv hrest
    have hmlen : m.length ≠ 0 := by
      cases m with
      | nil => exact absurd rfl hm0
      | cons _ _ => simp
    have hih := ih extra (fun x hx => hnum x (by simp [hx])) hextra
    have hshape : ((m :: ms).map (fun m => 32 :: m)).flatten ++ extra =
        32 :: (m ++ ((ms.map (fun m => 32 :: m)).flatten ++ extra)) := by
      simp [List.map_cons, List.flatten_cons, List.cons_append, List.append_assoc]
    rw [hshape, List.length_cons]
    simp only [scanLoop, hpu]
    rw [if_neg (by simp), if_neg (by simpa using hmlen)]
    rw [List.drop_left, hih]
    simp [List.map_cons]

theorem scan_tokens (w : List Nat) (numerals : List (List Nat)) (extra : List Nat)
    (hnum : ∀ m ∈ numerals, m ≠ [] ∧ m.all isDigit = true ∧ decValue m ≤ U64MAX)
    (hextra : ∀ c, extra.head? = some c → isDigit c = false) :
    scan (w ++ ((numerals.map (fun m => 32 :: m)).flatten ++ extra)) w numerals.length =
      .ok (numerals.map decValue) := by
  unfold scan
  rw [if_pos (by simpa using isPrefixOf_append_self w _)]
  rw [List.drop_left]
  exact scanLoop_tokens (w ++ ((numerals.map (fun m => 32 :: m)).flatten ++ extra))
    numerals extra hnum hextra

/-- C4: for every header line of the form `W n1 n2 ... nk` in which `W` is
the expected word, `k` is the expected count, and each `ni` is an unsigned
decimal numeral fitting 64 bits, `scan` returns exactly the integers
`[n1..nk]` in order with no error. -/
theorem scan_valid_header (w : List Nat) (numerals : List (List Nat))
    (hnum : ∀ m ∈ numerals, m ≠ [] ∧ m.all isDigit = true ∧ decValue m ≤ U64MAX) :
    scan (w ++ (numerals.map (fun m => 32 :: m)).flatten) w numerals.length =
      .ok (numerals.map decValue) := by
  have h := scan_tokens w numerals [] hnum (by intro c hc; simp at hc)
  simpa using h

/-- Witness for C4 at a concrete valid header. -/
theorem scan_valid_header_witness :
    scan (bytes ("RESERVED 12 345")) (bytes ("RESERVED")) 2 = .ok [12, 345] := by
  have h := scan_valid_header (bytes ("RESERVED")) [bytes ("12"), bytes ("345")] (by decide)
  have e1 : bytes ("RESERVED") ++
      (([bytes ("12"), bytes ("345")]).map (fun m => 32 :: m)).flatten =
      bytes ("RESERVED 12 345") := by decide
  have e2 : ([bytes ("12"), bytes ("345")]).map decValue = [12, 345] := by decide
  rw [e1, e2] at h
  exact h

/-- C2 counterexample: a line with an extra trailing token after the one
requested integer is accepted by `scan`, not reported as an unknown
response, contradicting the claim that a prefix-matching line with extra
trailing content is malformed. -/
theorem scan_extra_token_accepted :
    scan (bytes ("INSERTED 1 9")) (bytes ("INSERTED")) 1 = .ok [1] := by rfl

/-- C2 (amended): `scan` accepts a line that begins with the expected word
followed by, for each requested integer in sequence, a space and a digit
run (64-bit bounded); whatever trails the last requested integer is not
examined.  When the expected word matches as a prefix but the space or
the digit expected next is missing, the result is an unknown-response
error carrying the original line. -/
theorem scan_spec :
    (∀ (w : List Nat) (numerals : List (List Nat)) (extra : List Nat),
      (∀ m ∈ numerals, m ≠ [] ∧ m.all isDigit = true ∧ decValue m ≤ U64MAX) →
      (∀ c, extra.head? = some c → isDigit c = false) →
      scan (w ++ ((numerals.map (fun m => 32 :: m)).flatten ++ extra)) w numerals.length =
        .ok (numerals.map decValue)) ∧
    (∀ (w tail : List Nat) (n : Nat), (∀ c, tail.head? = some c → c ≠ 32) →
      scan (w ++ tail) w (n + 1) = .error (.unknown (w ++ tail))) ∧
    (∀ (w rest : List Nat) (n : Nat), (∀ c, rest.head? = some c → isDigit c = false) →
      scan (w ++ 32 :: rest) w (n + 1) = .error (.unknown (w ++ 32 :: rest))) := by
  refine ⟨scan_tokens, ?_, ?_⟩
  · intro w tail n htail
    unfold scan
    rw [if_pos (by simpa using isPrefixOf_append_self w tail), List.drop_left]
    cases tail with
    | nil => simp [scanLoop]
    | cons c t =>
      have hc : c ≠ 32 := htail c rfl
      simp [scanLoop, hc]
  · intro w rest n hrest
    unfold scan
    rw [if_pos (by simpa using isPrefixOf_append_self w (32 :: rest)), List.drop_left]
    cases rest with
    | nil => simp [scanLoop, parseUint, parseUintA]
    | cons c t =>
      have hc : isDigit c = false := hrest c rfl
      simp [scanLoop, parseUint, parseUintA, hc]

/-- Witness for the amended C2 at a concrete line with trailing junk. -/
theorem scan_spec_witness : scan (bytes ("OK 5 junk")) (bytes ("OK")) 1 = .ok [5] := by
  have h := scan_spec.1 (bytes ("OK")) [bytes ("5")] (bytes (" junk")) (by decide) (by decide)
  have e1 : bytes ("OK") ++ ((([bytes ("5")]).map (fun m => 32 :: m)).flatten ++ bytes (" junk")) =
      bytes ("OK 5 junk") := by decide
  have e2 : ([bytes ("5")]).map decValue = [5] := by decide
  rw [e1, e2] at h
  exact h

/-! ### Lemmas about `findRespError` -/

def kindIsUnknown : RespError → Bool
  | .unknown _ => true
  | _ => false

theorem respTable_eval : ∀ p ∈ respTable, findRespError p.1 = p.2 := by decide

theorem respTable_kinds_inj : ∀ p ∈ respTable, ∀ q ∈ respTable, p.2 = q.2 → p.1 = q.1 := by
  decide

theorem respTable_kinds_not_unknown : ∀ p ∈ respTable, kindIsUnknown p.2 = false := by decide

theorem findRespError_not_reserved (s : List Nat) (h : ∀ w k, (w, k) ∈ respTable → s ≠ w) :
    findRespError s = .unknown s := by
  have h1 : s ≠ resBadFormat := h resBadFormat RespError.badFormat (by simp [respTable])
  have h2 : s ≠ resBuried := h resBuried RespError.buried (by simp [respTable])
  have h3 : s ≠ resDeadline := h resDeadline RespError.deadline (by simp [respTable])
  have h4 : s ≠ resDraining := h resDraining RespError.draining (by simp [respTable])
  have h5 : s ≠ resInternal := h resInternal RespError.internal (by simp [respTable])
  have h6 : s ≠ resJobTooBig := h resJobTooBig RespError.jobTooBig (by simp [respTable])
  have h7 : s ≠ resNoCRLF := h resNoCRLF RespError.noCRLF (by simp [respTable])
  have h8 : s ≠ resNotFound := h resNotFound RespError.notFound (by simp [respTable])
  have h9 : s ≠ resNotIgnored := h resNotIgnored RespError.notIgnored (by simp [respTable])
  have h10 : s ≠ resOOM := h resOOM RespError.oom (by simp [respTable])
  have h11 : s ≠ resTimeout := h resTimeout RespError.timeout (by simp [respTable])
  have h12 : s ≠ resUnknownCmd := h resUnknownCmd RespError.unknownCmd (by simp [respTable])
  unfold findRespError
  cases s with
  | nil => rfl
  | cons c rest =>
    simp only [List.head?_cons]
    simp [h1, h2, h3, h4, h5, h6, h7, h8, h9, h10, h11, h12]

/-- C5: the error classifier returns the fixed kind of a reserved status
word exactly when the line is byte-for-byte equal to that word, and for
every other line returns an unknown-response value carrying the original
line unchanged. -/
theorem findRespError_spec (s : List Nat) :
    (∀ w k, (w, k) ∈ respTable → (findRespError s = k ↔ s = w)) ∧
    ((∀ w k, (w, k) ∈ respTable → s ≠ w) → findRespError s = .unknown s) := by
  refine ⟨?_, findRespError_not_reserved s⟩
  intro w k hm
  constructor
  · intro hf
    by_cases hex : ∃ p ∈ respTable, s = p.1
    · obtain ⟨p, hm2, hs⟩ := hex
      subst hs
      have he : findRespError p.1 = p.2 := respTable_eval p hm2
      rw [he] at hf
      exact respTable_kinds_inj p hm2 (w, k) hm hf
    · push_neg at hex
      have hu : findRespError s = .unknown s :=
        findRespError_not_reserved s (fun w2 k2 hm2 => hex (w2, k2) hm2)
      rw [hu] at hf
      have := respTable_kinds_not_unknown (w, k) hm
      rw [← hf] at this
      simp [kindIsUnknown] at this
  · intro hs
    rw [hs]
    exact respTable_eval (w, k) hm

/-- Witness for C5: a concrete reserved word classifies to its kind. -/
theorem findRespError_spec_witness :
    findRespError (bytes ("NOT_FOUND")) = RespError.notFound := by
  have h := (findRespError_spec (bytes ("NOT_FOUND"))).1 (bytes ("NOT_FOUND"))
    RespError.notFound (by simp [respTable, resNotFound])
  exact h.mpr rfl

/-! ### Lemmas about `parseSize` -/

theorem lastIndexOf_eq_none (s : List Nat) (c : Nat) (h : c ∉ s) :
    lastIndexOf s c = none := by
  induction s with
  | nil => rfl
  | cons a rest ih =>
    simp only [List.mem_cons, not_or] at h
    unfold lastIndexOf
    rw [ih h.2]
    simp [Ne.symm, h.1]

theorem decValue_append_ge (x y : List Nat) : decValue x ≤ decValue (x ++ y) := by
  unfold decValue
  rw [List.foldl_append]
  exact foldl_dec_ge y _

theorem decValue_append_one (x : List Nat) (a : Nat) :
    decValue (x ++ [a]) = decValue x * 10 + (a - 48) := by
  unfold decValue
  rw [List.foldl_append]
  rfl

/-- C9: `parseSize` fails by classifying the whole line when the line has
no space; when a space exists, it fails with an unknown-response exactly
when the trailing token is empty, contains a non-digit, or denotes a
value exceeding the platform's maximum signed integer; otherwise it
returns the line minus the trailing token together with the token's
value. -/
theorem parseSize_spec (s : List Nat) :
    (32 ∉ s → parseSize s = .error (findRespError s)) ∧
    (∀ i, lastIndexOf s 32 = some i →
      ((parseSize s = .error (.unknown s)) ↔
        (s.drop (i + 1) = [] ∨ ¬ (s.drop (i + 1)).all isDigit = true ∨
          maxSize < decValue (s.drop (i + 1)))) ∧
      ((s.drop (i + 1) ≠ [] ∧ (s.drop (i + 1)).all isDigit = true ∧
          decValue (s.drop (i + 1)) ≤ maxSize) →
        parseSize s = .ok (s.take i, decValue (s.drop (i + 1))))) := by
  constructor
  · intro hns
    unfold parseSize
    rw [lastIndexOf_eq_none s 32 hns]
  · intro i hi
    set b := s.drop (i + 1) with hb
    have hspec := parseUint_props b
    set k := (parseUint b).2 with hk
    set v := (parseUint b).1 with hv
    obtain ⟨hkle, htake, hvk, hdisj⟩ := hspec
    have hps : parseSize s = if k = 0 ∨ k ≠ b.length ∨ maxSize < v then
        Except.error (RespError.unknown s) else Except.ok (s.take i, v) := by
      unfold parseSize
      rw [hi]
    have hcond : (parseSize s = .error (.unknown s)) ↔
        (k = 0 ∨ k ≠ b.length ∨ maxSize < v) := by
      rw [hps]
      by_cases hc : k = 0 ∨ k ≠ b.length ∨ maxSize < v
      · rw [if_pos hc]
        exact iff_of_true rfl hc
      · rw [if_neg hc]
        constructor
        · intro h2
          exact absurd h2 (by simp)
        · intro h2
          exact absurd h2 hc
    -- shared consequences of stopping before the end of the token
    have hnondig : k < b.length → isDigit (b.getD k 0) = false →
        ¬ b.all isDigit = true := by
      intro hkl hnd hall
      rw [List.all_eq_true] at hall
      have hm : b.getD k 0 ∈ b := by
        rw [List.getD_eq_getElem b 0 hkl]
        exact List.getElem_mem hkl
      have hD := hall _ hm
      rw [hD] at hnd
      exact absurd hnd (by decide)
    have hbig : k < b.length → U64MAX < v * 10 + (b.getD k 0 - 48) →
        maxSize < decValue b := by
      intro hkl hov
      have htk : b.take (k + 1) = b.take k ++ [b.getD k 0] := by
        rw [List.take_succ]
        congr 1
        rw [List.getD_eq_getElem?_getD]
        cases hgo : b[k]? with
        | none => exact absurd (List.getElem?_eq_none_iff.mp hgo) (by omega)
        | some x => simp [hgo]
      have hd1 : decValue (b.take (k + 1)) = v * 10 + (b.getD k 0 - 48) := by
        rw [htk, decValue_append_one, ← hvk]
      have hd2 : decValue (b.take (k + 1)) ≤ decValue b := by
        have h := decValue_append_ge (b.take (k + 1)) (b.drop (k + 1))
        rwa [List.take_append_drop] at h
      unfold maxSize
      unfold U64MAX at hov
      omega
    constructor
    · rw [hcond]
      constructor
      · rintro (h0 | hne | hgt)
        · -- k = 0: the token is empty or starts with a non-digit
          by_cases hbe : b = []
          · exact Or.inl hbe
          · have hkl : k < b.length := by
              have : b.length ≠ 0 := fun hz => hbe (List.length_eq_zero.mp hz)
              omega
            rcases hdisj with hlen | hnd | hov
            · omega
            · exact Or.inr (Or.inl (hnondig hkl hnd))
            · have hv0 : v = 0 := by
                rw [hvk, h0]
                simp [decValue]
              by_cases hd : isDigit (b.getD k 0) = true
              · obtain ⟨hd1, hd2⟩ := isDigit_iff.mp hd
                rw [hv0] at hov
                exfalso
                unfold U64MAX at hov
                omega
              · exact Or.inr (Or.inl (hnondig hkl ((Bool.not_eq_true _).mp hd)))
        · -- k ≠ length: non-digit inside, or 64-bit overflow inside
          have hkl : k < b.length := by omega
          rcases hdisj with hlen | hnd | hov
          · omega
          · exact Or.inr (Or.inl (hnondig hkl hnd))
          · exact Or.inr (Or.inr (hbig hkl hov))
        · -- parsed value exceeds maxSize
          by_cases hkb : k = b.length
          · refine Or.inr (Or.inr ?_)
            rw [hvk, hkb, List.take_length] at hgt
            exact hgt
          · have hkl : k < b.length := by omega
            rcases hdisj with hlen | hnd | hov
            · omega
            · exact Or.inr (Or.inl (hnondig hkl hnd))
            · exact Or.inr (Or.inr (hbig hkl hov))
      · rintro (hbe | hnall | hgt)
        · refine Or.inl ?_
          rw [hbe] at hk
          simpa [parseUint, parseUintA] using hk
        · refine Or.inr (Or.inl ?_)
          intro hkb
          apply hnall
          rw [hkb, List.take_length] at htake
          exact htake
        · by_cases hkb : k = b.length
          · refine Or.inr (Or.inr ?_)
            rw [hvk, hkb, List.take_length]
            exact hgt
          · exact Or.inr (Or.inl hkb)
    · rintro ⟨hbe, hall, hle⟩
      have hfull : parseUint b = (decValue b, b.length) :=
        parseUint_digits b hall (by unfold maxSize at hle; unfold U64MAX; omega)
      have hveq : v = decValue b := by rw [hv, hfull]
      have hkeq : k = b.length := by rw [hk, hfull]
      rw [hps, if_neg]
      · rw [hveq]
      · rw [hveq, hkeq]
        simp only [not_or]
        refine ⟨fun h0 => hbe (List.length_eq_zero.mp h0), fun h2 => h2 rfl, by omega⟩


/-- Witness for C9 at a concrete body-declaring line. -/
theorem parseSize_spec_witness : parseSize (bytes ("OK 5")) = .ok (bytes ("OK"), 5) := by
  have h := ((parseSize_spec (bytes ("OK 5"))).2 2 (by rfl)).2 (by decide)
  have e1 : (bytes ("OK 5")).take 2 = bytes ("OK") := by decide
  have e2 : decValue ((bytes ("OK 5")).drop 3) = 5 := by decide
  rw [e1, e2] at h
  exact h

/-! ### The read path consumes a declared body before header validation -/

/-- C6: once the header line declares a body length `N`, the read path
consumes exactly `N` bytes plus the two-byte terminator from the stream,
and only afterwards surfaces the header-versus-expected-word outcome: the
stream position is the same whether `scan` accepts or rejects the header,
and a rejected header still leaves the body consumed. -/
theorem readRespArgs_body_framing (s line rest h2 : List Nat) (n : Nat)
    (cmd : List Nat) (k : Nat)
    (hline : readSkipAcks s = some (line, rest))
    (hsize : parseSize line = .ok (h2, n))
    (havail : n + 2 ≤ rest.length) :
    (readRespArgs s true cmd k).2 = rest.drop (n + 2) ∧
    (∀ e, scan h2 cmd k = .error e →
      (readRespArgs s true cmd k).1 = .error (.resp e)) ∧
    (∀ vs, scan h2 cmd k = .ok vs →
      (readRespArgs s true cmd k).1 = .ok (vs, some (rest.take n))) := by
  have hraw : readRawResp s true =
      .ok (h2, some (rest.take n), rest.drop (n + 2)) := by
    unfold readRawResp
    rw [hline]
    simp [hsize, havail]
  refine ⟨?_, ?_, ?_⟩
  · unfold readRespArgs
    rw [hraw]
    rcases hs : scan h2 cmd k with e | vs <;> simp [hs]
  · intro e he
    unfold readRespArgs
    rw [hraw]
    simp [he]
  · intro vs hvs
    unfold readRespArgs
    rw [hraw]
    simp [hvs]

/-- Witness for C6 on a concrete stream carrying a one-byte body. -/
theorem readRespArgs_body_framing_witness :
    (readRespArgs (bytes ("FOUND 1 1\r\nx\r\n")) true (bytes ("FOUND")) 1).2 = [] ∧
    (readRespArgs (bytes ("FOUND 1 1\r\nx\r\n")) true (bytes ("FOUND")) 1).1 =
      .ok ([1], some [120]) := by
  have h := readRespArgs_body_framing (bytes ("FOUND 1 1\r\nx\r\n")) (bytes ("FOUND 1 1"))
    (bytes ("x\r\n")) (bytes ("FOUND 1")) 1 (bytes ("FOUND")) 1 (by rfl) (by rfl) (by decide)
  refine ⟨?_, ?_⟩
  · rw [h.1]
    rfl
  · rw [h.2.2 [1] (by rfl)]
    rfl

/-! ### Lemmas about session-state reconciliation -/

theorem useStep_watched (c : Conn) (t : Option Tube) : (useStep c t).1.watched = c.watched := by
  cases t with
  | none => rfl
  | some tu =>
    simp only [useStep]
    split_ifs with h
    · cases checkName tu.Name <;> rfl
    · rfl

theorem useStep_buf (c : Conn) (t : Option Tube) : (useStep c t).1.buf = c.buf := by
  cases t with
  | none => rfl
  | some tu =>
    simp only [useStep]
    split_ifs with h
    · cases checkName tu.Name <;> rfl
    · rfl

theorem useStep_err (c : Conn) (t : Option Tube)
    (h : (useStep c t).2.2.isSome = true) :
    (useStep c t).1 = c ∧ (useStep c t).2.1 = [] := by
  cases t with
  | none => simp [useStep] at h
  | some tu =>
    by_cases hne : tu.Name = c.used
    · simp [useStep, hne] at h
    · cases hcn : checkName tu.Name with
      | some e => simp [useStep, hne, hcn]
      | none => simp [useStep, hne, hcn] at h

theorem useStep_ok_used (c : Conn) (t : Option Tube)
    (h : (useStep c t).2.2 = none) :
    ∀ tu, t = some tu → (useStep c t).1.used = tu.Name := by
  intro tu htu
  subst htu
  by_cases hne : tu.Name = c.used
  · simp [useStep, hne]
  · cases hcn : checkName tu.Name with
    | some e => simp [useStep, hne, hcn] at h
    | none => simp [useStep, hne, hcn]

theorem useStep_same (c : Conn) (t : Option Tube)
    (h : ∀ tu, t = some tu → tu.Name = c.used) : useStep c t = (c, [], none) := by
  cases t with
  | none => rfl
  | some tu =>
    have hne : tu.Name = c.used := h tu rfl
    simp [useStep, hne]

theorem useStep_apply (c : Conn) (t : Option Tube) :
    applyCmds (c.used, c.watched) (useStep c t).2.1 =
      ((useStep c t).1.used, (useStep c t).1.watched) := by
  cases t with
  | none => rfl
  | some tu =>
    simp only [useStep]
    split_ifs with h
    · cases checkName tu.Name <;> rfl
    · rfl

theorem useStep_no_target (c : Conn) (t : Option Tube) :
    ∀ x ∈ (useStep c t).2.1, isTargetCmd x = false := by
  cases t with
  | none => simp [useStep]
  | some tu =>
    simp only [useStep]
    split_ifs with h
    · cases checkName tu.Name with
      | some e => simp
      | none => simp [isTargetCmd]
    · simp

theorem watchLoop_sup : ∀ (T : List (List Nat)) (w : List (List Nat)),
    ∃ ext, (watchLoop w T).1 = w ++ ext := by
  intro T
  induction T with
  | nil => intro w; exact ⟨[], by simp [watchLoop]⟩
  | cons s rest ih =>
    intro w
    by_cases hw : s ∈ w
    · simpa [watchLoop, hw] using ih w
    · cases hcn : checkName s with
      | some e => exact ⟨[], by simp [watchLoop, hw, hcn]⟩
      | none =>
        obtain ⟨ext, hext⟩ := ih (w ++ [s])
        rcases hq : watchLoop (w ++ [s]) rest with ⟨w2, cmds2, err2⟩
        refine ⟨[s] ++ ext, ?_⟩
        rw [hq] at hext
        simp only at hext
        simp [watchLoop, hw, hcn, hq, hext]

theorem watchLoop_ok_mem : ∀ (T : List (List Nat)) (w : List (List Nat)),
    (watchLoop w T).2.2 = none → ∀ s ∈ T, s ∈ (watchLoop w T).1 := by
  intro T
  induction T with
  | nil => intro w _ s hs; simp at hs
  | cons a rest ih =>
    intro w hok s hs
    by_cases hw : a ∈ w
    · rw [List.mem_cons] at hs
      rcases hs with hsa | hsr
      · subst hsa
        obtain ⟨ext, hext⟩ := watchLoop_sup rest w
        simp only [watchLoop, if_pos hw]
        rw [hext]
        exact List.mem_append_left _ hw
      · simp only [watchLoop, if_pos hw] at hok ⊢
        exact ih w hok s hsr
    · cases hcn : checkName a with
      | some e => simp [watchLoop, hw, hcn] at hok
      | none =>
        rcases hq : watchLoop (w ++ [a]) rest with ⟨w2, cmds2, err2⟩
        have hok2 : err2 = none := by
          simpa [watchLoop, hw, hcn, hq] using hok
        subst hok2
        rw [List.mem_cons] at hs
        have hres : (watchLoop w (a :: rest)).1 = w2 := by
          simp [watchLoop, hw, hcn, hq]
        rw [hres]
        rcases hs with hsa | hsr
        · subst hsa
          obtain ⟨ext, hext⟩ := watchLoop_sup rest (w ++ [s])
          rw [hq] at hext
          simp only at hext
          rw [hext]
          exact List.mem_append_left _ (List.mem_append_right _ (by simp))
        · have := ih (w ++ [a]) (by rw [hq]) s hsr
          rwa [hq] at this

theorem watchLoop_all_mem : ∀ (T : List (List Nat)) (w : List (List Nat)),
    (∀ s ∈ T, s ∈ w) → watchLoop w T = (w, [], none) := by
  intro T
  induction T with
  | nil => intro w _; rfl
  | cons a rest ih =>
    intro w hall
    have ha : a ∈ w := hall a (by simp)
    simp only [watchLoop, if_pos ha]
    exact ih w (fun s hs => hall s (by simp [hs]))

theorem applyCmds_append (p : List Nat × List (List Nat)) (l1 l2 : List WireCmd) :
    applyCmds p (l1 ++ l2) = applyCmds (applyCmds p l1) l2 := by
  unfold applyCmds
  rw [List.foldl_append]

theorem watchLoop_apply : ∀ (T : List (List Nat)) (w : List (List Nat)) (u : List Nat),
    applyCmds (u, w) (watchLoop w T).2.1 = (u, (watchLoop w T).1) := by
  intro T
  induction T with
  | nil => intro w u; rfl
  | cons a rest ih =>
    intro w u
    by_cases hw : a ∈ w
    · simp only [watchLoop, if_pos hw]
      exact ih w u
    · cases hcn : checkName a with
      | some e => simp [watchLoop, hw, hcn, applyCmds]
      | none =>
        rcases hq : watchLoop (w ++ [a]) rest with ⟨w2, cmds2, err2⟩
        have hres : (watchLoop w (a :: rest)).2.1 = WireCmd.watch a :: cmds2 := by
          simp [watchLoop, hw, hcn, hq]
        have hres1 : (watchLoop w (a :: rest)).1 = w2 := by
          simp [watchLoop, hw, hcn, hq]
        rw [hres, hres1]
        have step : applyCmd (u, w) (WireCmd.watch a) = (u, w ++ [a]) := rfl
        have := ih (w ++ [a]) u
        rw [hq] at this
        simp only at this
        unfold applyCmds at this ⊢
        rw [List.foldl_cons, step]
        exact this

theorem watchLoop_no_target : ∀ (T : List (List Nat)) (w : List (List Nat)),
    ∀ x ∈ (watchLoop w T).2.1, isTargetCmd x = false := by
  intro T
  induction T with
  | nil => intro w x hx; simp [watchLoop] at hx
  | cons a rest ih =>
    intro w x hx
    by_cases hw : a ∈ w
    · simp only [watchLoop, if_pos hw] at hx
      exact ih w x hx
    · cases hcn : checkName a with
      | some e => simp [watchLoop, hw, hcn] at hx
      | none =>
        rcases hq : watchLoop (w ++ [a]) rest with ⟨w2, cmds2, err2⟩
        have hres : (watchLoop w (a :: rest)).2.1 = WireCmd.watch a :: cmds2 := by
          simp [watchLoop, hw, hcn, hq]
        rw [hres] at hx
        rcases List.mem_cons.mp hx with hxa | hxr
        · subst hxa; rfl
        · have := ih (w ++ [a]) x
          rw [hq] at this
          exact this hxr

theorem ignoreLoop_eq : ∀ (w T : List (List Nat)),
    ignoreLoop w T = (w.filter (fun s => decide (s ∈ T)),
      (w.filter (fun s => decide (s ∉ T))).map WireCmd.ignore) := by
  intro w
  induction w with
  | nil => intro T; rfl
  | cons a rest ih =>
    intro T
    by_cases ha : a ∈ T
    · simp [ignoreLoop, ih T, ha, List.filter_cons]
    · simp [ignoreLoop, ih T, ha, List.filter_cons]

theorem applyCmds_ignores : ∀ (xs : List (List Nat)) (w : List (List Nat)) (u : List Nat),
    applyCmds (u, w) (xs.map WireCmd.ignore) = (u, w.filter (fun y => decide (y ∉ xs))) := by
  intro xs
  induction xs with
  | nil =>
    intro w u
    simp [applyCmds]
  | cons x xs ih =>
    intro w u
    have hstep : applyCmd (u, w) (WireCmd.ignore x) =
        (u, w.filter (fun z => decide (z ≠ x))) := rfl
    have hpred : ∀ a ∈ w.filter (fun z => decide (z ≠ x)),
        (fun y => decide (y ∉ xs)) a = (fun y => decide (y ∉ xs)) a := fun _ _ => rfl
    unfold applyCmds at ih ⊢
    rw [List.map_cons, List.foldl_cons, hstep, ih]
    congr 1
    rw [List.filter_filter]
    apply List.filter_congr
    intro a _
    by_cases h1 : a ∈ xs <;> by_cases h2 : a = x <;> simp [h1, h2]

theorem ignoreLoop_all (w T : List (List Nat)) (h : ∀ s ∈ w, s ∈ T) :
    ignoreLoop w T = (w, []) := by
  have h1 : w.filter (fun s => decide (s ∈ T)) = w :=
    List.filter_eq_self.mpr (by intro a ha; simpa using h a ha)
  have h2 : w.filter (fun s => decide (s ∉ T)) = [] :=
    List.filter_eq_nil_iff.mpr (by intro a ha; simpa using h a ha)
  rw [ignoreLoop_eq, h1, h2]
  rfl

theorem watchLoop_ok_eq : ∀ (T w : List (List Nat)), T.Nodup →
    (watchLoop w T).2.2 = none →
    (watchLoop w T).1 = w ++ T.filter (fun s => decide (s ∉ w)) ∧
    (watchLoop w T).2.1 = (T.filter (fun s => decide (s ∉ w))).map WireCmd.watch := by
  intro T
  induction T with
  | nil => intro w _ _; simp [watchLoop]
  | cons a rest ih =>
    intro w hnd hok
    have hnda : a ∉ rest := (List.nodup_cons.mp hnd).1
    have hndr : rest.Nodup := (List.nodup_cons.mp hnd).2
    by_cases hw : a ∈ w
    · obtain ⟨h1, h2⟩ := ih w hndr (by simpa [watchLoop, hw] using hok)
      constructor
      · simp [watchLoop, hw, List.filter_cons, h1]
      · simp [watchLoop, hw, List.filter_cons, h2]
    · cases hcn : checkName a with
      | some e => simp [watchLoop, hw, hcn] at hok
      | none =>
        rcases hq : watchLoop (w ++ [a]) rest with ⟨w2, cmds2, err2⟩
        have hok2 : err2 = none := by
          simpa [watchLoop, hw, hcn, hq] using hok
        subst hok2
        obtain ⟨h1, h2⟩ := ih (w ++ [a]) hndr (by rw [hq])
        rw [hq] at h1 h2
        simp only at h1 h2
        have hfe : rest.filter (fun s => decide (s ∉ w ++ [a])) =
            rest.filter (fun s => decide (s ∉ w)) := by
          apply List.filter_congr
          intro s hs
          have hsa : s ≠ a := fun hh => hnda (hh ▸ hs)
          apply decide_eq_decide.mpr
          simp [List.mem_append, hsa]
        rw [hfe] at h1 h2
        constructor
        · have hres : (watchLoop w (a :: rest)).1 = w2 := by
            simp [watchLoop, hw, hcn, hq]
          rw [hres, h1, List.filter_cons]
          simp [hw, List.append_assoc]
        · have hres : (watchLoop w (a :: rest)).2.1 = WireCmd.watch a :: cmds2 := by
            simp [watchLoop, hw, hcn, hq]
          rw [hres, h2, List.filter_cons]
          simp [hw]

/-- Occurrence count of one command line in a buffered command list. -/
def countCmd (x : WireCmd) (l : List WireCmd) : Nat :=
  (l.filter (fun y => decide (y = x))).length

theorem countCmd_append (x : WireCmd) (l1 l2 : List WireCmd) :
    countCmd x (l1 ++ l2) = countCmd x l1 + countCmd x l2 := by
  simp [countCmd, List.filter_append]

/-- Occurrence count of one name in a name list. -/
def countN (s : List Nat) (l : List (List Nat)) : Nat :=
  (l.filter (fun y => decide (y = s))).length

theorem countCmd_map_watch (s : List Nat) : ∀ l : List (List Nat),
    countCmd (WireCmd.watch s) (l.map WireCmd.watch) = countN s l := by
  intro l
  induction l with
  | nil => rfl
  | cons a rest ih =>
    by_cases ha : a = s
    · subst ha
      simp [countCmd, countN, List.filter_cons] at ih ⊢
      exact ih
    · simp [countCmd, countN, List.filter_cons, ha] at ih ⊢
      exact ih

theorem countCmd_map_ignore (s : List Nat) : ∀ l : List (List Nat),
    countCmd (WireCmd.ignore s) (l.map WireCmd.ignore) = countN s l := by
  intro l
  induction l with
  | nil => rfl
  | cons a rest ih =>
    by_cases ha : a = s
    · subst ha
      simp [countCmd, countN, List.filter_cons] at ih ⊢
      exact ih
    · simp [countCmd, countN, List.filter_cons, ha] at ih ⊢
      exact ih

theorem countCmd_watch_on_ignores (s : List Nat) : ∀ l : List (List Nat),
    countCmd (WireCmd.watch s) (l.map WireCmd.ignore) = 0 := by
  intro l
  induction l with
  | nil => rfl
  | cons a rest ih => simpa [countCmd, List.filter_cons] using ih

theorem countCmd_ignore_on_watches (s : List Nat) : ∀ l : List (List Nat),
    countCmd (WireCmd.ignore s) (l.map WireCmd.watch) = 0 := by
  intro l
  induction l with
  | nil => rfl
  | cons a rest ih => simpa [countCmd, List.filter_cons] using ih

theorem countN_nodup (s : List Nat) : ∀ l : List (List Nat), l.Nodup →
    countN s l = if s ∈ l then 1 else 0 := by
  intro l
  induction l with
  | nil => intro _; rfl
  | cons a rest ih =>
    intro hnd
    have hna : a ∉ rest := (List.nodup_cons.mp hnd).1
    have hnr : rest.Nodup := (List.nodup_cons.mp hnd).2
    by_cases ha : a = s
    · subst ha
      have hzero : rest.filter (fun y => decide (y = a)) = [] := by
        rw [List.filter_eq_nil_iff]
        intro x hx
        simp only [decide_eq_true_eq]
        intro hxa
        exact hna (hxa ▸ hx)
      rw [if_pos (by simp)]
      unfold countN
      rw [List.filter_cons, hzero]
      simp
    · have hstep : countN s (a :: rest) = countN s rest := by
        unfold countN
        rw [List.filter_cons]
        simp [ha]
      rw [hstep, ih hnr]
      by_cases hs : s ∈ rest
      · rw [if_pos hs, if_pos (by simp [hs])]
      · rw [if_neg hs, if_neg ?_]
        rw [List.mem_cons]
        rintro (h | h)
        · exact ha h.symm
        · exact hs h

theorem adjustTubes_ts_none (c : Conn) (t : Option Tube) :
    adjustTubes c t none = useStep c t := by
  rcases h : useStep c t with ⟨c1, cmds1, err⟩
  cases err <;> simp [adjustTubes, h]

theorem adjustTubes_useStep_err (c : Conn) (t : Option Tube) (ts : Option TubeSet)
    (h : (useStep c t).2.2.isSome = true) : adjustTubes c t ts = useStep c t := by
  rcases hq : useStep c t with ⟨c1, cmds1, err⟩
  cases err with
  | none => rw [hq] at h; simp at h
  | some e => cases ts <;> simp [adjustTubes, hq]

theorem adjustTubes_watch_err (c : Conn) (t : Option Tube) (ts : TubeSet)
    (c1 : Conn) (cmds1 : List WireCmd) (w2 : List (List Nat)) (cmds2 : List WireCmd)
    (e : NameErr) (hu : useStep c t = (c1, cmds1, none))
    (hw : watchLoop c1.watched ts.Name = (w2, cmds2, some e)) :
    adjustTubes c t (some ts) = ({ c1 with watched := w2 }, cmds1 ++ cmds2, some e) := by
  simp [adjustTubes, hu, hw]

theorem adjustTubes_ok (c : Conn) (t : Option Tube) (ts : TubeSet)
    (c1 : Conn) (cmds1 : List WireCmd) (w2 : List (List Nat)) (cmds2 : List WireCmd)
    (w3 : List (List Nat)) (cmds3 : List WireCmd)
    (hu : useStep c t = (c1, cmds1, none))
    (hw : watchLoop c1.watched ts.Name = (w2, cmds2, none))
    (hig : ignoreLoop w2 ts.Name = (w3, cmds3)) :
    adjustTubes c t (some ts) = ({ c1 with watched := w3 }, cmds1 ++ cmds2 ++ cmds3, none) := by
  simp [adjustTubes, hu, hw, hig]

/-- C8: reconciliation is idempotent — after a successful reconciliation
against a given used-queue and watched-set intent, reconciling again with
the same intent emits no select, watch, or ignore command and leaves the
remembered session state unchanged. -/
theorem adjustTubes_idempotent (c : Conn) (t : Option Tube) (ts : Option TubeSet)
    (c1 : Conn) (cmds : List WireCmd)
    (h : adjustTubes c t ts = (c1, cmds, none)) :
    adjustTubes c1 t ts = (c1, [], none) := by
  rcases hu : useStep c t with ⟨cu, cmdsu, erru⟩
  cases erru with
  | some e =>
    rw [adjustTubes_useStep_err c t ts (by rw [hu]; rfl), hu] at h
    simp at h
  | none =>
    have husame : ∀ tu, t = some tu → tu.Name = cu.used := by
      intro tu htu
      have := useStep_ok_used c t (by rw [hu]) tu htu
      rw [hu] at this
      exact this.symm
    cases ts with
    | none =>
      rw [adjustTubes_ts_none c t, hu] at h
      rw [Prod.mk.injEq, Prod.mk.injEq] at h
      obtain ⟨hc1, hcm, _⟩ := h
      subst hc1
      rw [adjustTubes_ts_none cu t]
      exact useStep_same cu t husame
    | some tss =>
      rcases hw : watchLoop cu.watched tss.Name with ⟨w2, cmds2, err2⟩
      cases err2 with
      | some e =>
        rw [adjustTubes_watch_err c t tss cu cmdsu w2 cmds2 e hu hw] at h
        simp at h
      | none =>
        rcases hig : ignoreLoop w2 tss.Name with ⟨w3, cmds3⟩
        rw [adjustTubes_ok c t tss cu cmdsu w2 cmds2 w3 cmds3 hu hw hig] at h
        rw [Prod.mk.injEq, Prod.mk.injEq] at h
        obtain ⟨hc1, _, _⟩ := h
        have higq := ignoreLoop_eq w2 tss.Name
        rw [hig, Prod.mk.injEq] at higq
        obtain ⟨hw3, _⟩ := higq
        have hTw2 : ∀ s ∈ tss.Name, s ∈ w2 := by
          intro s hs
          have := watchLoop_ok_mem tss.Name cu.watched (by rw [hw]) s hs
          rwa [hw] at this
        have hTw3 : ∀ s ∈ tss.Name, s ∈ w3 := by
          intro s hs
          rw [hw3]
          exact List.mem_filter.mpr ⟨hTw2 s hs, by simpa using hs⟩
        have hw3T : ∀ s ∈ w3, s ∈ tss.Name := by
          intro s hs
          rw [hw3] at hs
          have := List.mem_filter.mp hs
          simpa using this.2
        subst hc1
        have hus2 : useStep { cu with watched := w3 } t =
            ({ cu with watched := w3 }, [], none) := by
          apply useStep_same
          intro tu htu
          exact husame tu htu
        have hwl2 : watchLoop ({ cu with watched := w3 } : Conn).watched tss.Name =
            (w3, [], none) := by
          exact watchLoop_all_mem tss.Name w3 hTw3
        have hig2 : ignoreLoop w3 tss.Name = (w3, []) :=
          ignoreLoop_all w3 tss.Name hw3T
        rw [adjustTubes_ok { cu with watched := w3 } t tss { cu with watched := w3 }
          [] w3 [] w3 [] hus2 hwl2 hig2]
        simp

/-- Witness for C8: reconciling twice with the same intent from a fresh
connection; the second reconciliation is a no-op. -/
theorem adjustTubes_idempotent_witness :
    adjustTubes { used := bytes ("foo"), watched := [bytes ("bar")], buf := [] }
      (some { Name := bytes ("foo") }) (some { Name := [bytes ("bar")] }) =
    ({ used := bytes ("foo"), watched := [bytes ("bar")], buf := [] }, [], none) := by
  have h := adjustTubes_idempotent newConn (some { Name := bytes ("foo") })
    (some { Name := [bytes ("bar")] })
    { used := bytes ("foo"), watched := [bytes ("bar")], buf := [] }
    [WireCmd.use (bytes ("foo")), WireCmd.watch (bytes ("bar")),
      WireCmd.ignore (bytes ("default"))] (by decide)
  exact h

/-- A connection state watching the two queues named A and B. -/
def connAB : Conn :=
  { used := bytes ("default"), watched := [bytes ("A"), bytes ("B")], buf := [] }

/-- The intended watched set holding the queues named B and C. -/
def tsBC : TubeSet := { Name := [bytes ("B"), bytes ("C")] }

/-- C7: against a remembered watched set `W` and an intended set `T`
(both duplicate-free, as Go map key sets are), a successful
reconciliation emits exactly one watch command for each name in `T`
minus `W`, exactly one ignore command for each name in `W` minus `T`,
and no watch or ignore command for any other name — in particular none
for names in both sets. -/
theorem adjustTubes_minimal_diff (c : Conn) (T : List (List Nat))
    (hW : c.watched.Nodup) (hT : T.Nodup)
    (hok : (adjustTubes c none (some { Name := T })).2.2 = none) :
    ∀ s, countCmd (WireCmd.watch s) (adjustTubes c none (some { Name := T })).2.1 =
        (if s ∈ T ∧ s ∉ c.watched then 1 else 0) ∧
      countCmd (WireCmd.ignore s) (adjustTubes c none (some { Name := T })).2.1 =
        (if s ∈ c.watched ∧ s ∉ T then 1 else 0) := by
  have hu : useStep c none = (c, [], none) := rfl
  rcases hw : watchLoop c.watched T with ⟨w2, cmds2, err2⟩
  cases err2 with
  | some e =>
    rw [adjustTubes_watch_err c none ⟨T⟩ c [] w2 cmds2 e hu hw] at hok
    simp at hok
  | none =>
    rcases hig : ignoreLoop w2 T with ⟨w3, cmds3⟩
    have hadj := adjustTubes_ok c none ⟨T⟩ c [] w2 cmds2 w3 cmds3 hu hw hig
    obtain ⟨hw2eq, hcmds2eq⟩ := watchLoop_ok_eq T c.watched hT (by rw [hw])
    rw [hw] at hw2eq hcmds2eq
    simp only at hw2eq hcmds2eq
    have higq := ignoreLoop_eq w2 T
    rw [hig, Prod.mk.injEq] at higq
    obtain ⟨hw3eq, hcmds3eq⟩ := higq
    have hfil : w2.filter (fun s => decide (s ∉ T)) =
        c.watched.filter (fun s => decide (s ∉ T)) := by
      rw [hw2eq, List.filter_append]
      have hnil : (T.filter (fun s => decide (s ∉ c.watched))).filter
          (fun s => decide (s ∉ T)) = [] := by
        rw [List.filter_eq_nil_iff]
        intro x hx
        have hxT : x ∈ T := (List.mem_filter.mp hx).1
        simp [hxT]
      rw [hnil, List.append_nil]
    intro s
    simp only [hadj, List.nil_append]
    rw [countCmd_append, countCmd_append, hcmds2eq, hcmds3eq, hfil]
    constructor
    · rw [countCmd_map_watch, countCmd_watch_on_ignores,
        countN_nodup s _ (hT.filter _), Nat.add_zero]
      by_cases hs : s ∈ T ∧ s ∉ c.watched
      · rw [if_pos (List.mem_filter.mpr ⟨hs.1, by simpa using hs.2⟩), if_pos hs]
      · rw [if_neg ?_, if_neg hs]
        intro hmem
        obtain ⟨h1, h2⟩ := List.mem_filter.mp hmem
        exact hs ⟨h1, by simpa using h2⟩
    · rw [countCmd_ignore_on_watches, countCmd_map_ignore,
        countN_nodup s _ (hW.filter _), Nat.zero_add]
      by_cases hs : s ∈ c.watched ∧ s ∉ T
      · rw [if_pos (List.mem_filter.mpr ⟨hs.1, by simpa using hs.2⟩), if_pos hs]
      · rw [if_neg ?_, if_neg hs]
        intro hmem
        obtain ⟨h1, h2⟩ := List.mem_filter.mp hmem
        exact hs ⟨h1, by simpa using h2⟩

/-- Witness for C7: reconciling the watched set from two names A, B to
the pair B, C emits exactly one watch for C, one ignore for A, and
nothing for B. -/
theorem adjustTubes_minimal_diff_witness :
    countCmd (WireCmd.watch (bytes ("C"))) (adjustTubes connAB none tsBC).2.1 = 1 ∧
    countCmd (WireCmd.ignore (bytes ("A"))) (adjustTubes connAB none tsBC).2.1 = 1 ∧
    countCmd (WireCmd.watch (bytes ("B"))) (adjustTubes connAB none tsBC).2.1 = 0 ∧
    countCmd (WireCmd.ignore (bytes ("B"))) (adjustTubes connAB none tsBC).2.1 = 0 := by
  have h := adjustTubes_minimal_diff connAB [bytes ("B"), bytes ("C")]
    (by decide) (by decide) (by decide)
  unfold tsBC
  refine ⟨?_, ?_, ?_, ?_⟩
  · rw [(h (bytes ("C"))).1]
    decide
  · rw [(h (bytes ("A"))).2]
    decide
  · rw [(h (bytes ("B"))).1]
    decide
  · rw [(h (bytes ("B"))).2]
    decide

theorem adjustTubes_buf (c : Conn) (t : Option Tube) (ts : Option TubeSet) :
    (adjustTubes c t ts).1.buf = c.buf := by
  rcases hu : useStep c t with ⟨c1, cmds1, err1⟩
  have hb : c1.buf = c.buf := by rw [← useStep_buf c t, hu]
  cases err1 with
  | some e =>
    rw [adjustTubes_useStep_err c t ts (by rw [hu]; rfl), hu]
    exact hb
  | none =>
    cases ts with
    | none =>
      rw [adjustTubes_ts_none, hu]
      exact hb
    | some tss =>
      rcases hw : watchLoop c1.watched tss.Name with ⟨w2, cmds2, err2⟩
      cases err2 with
      | some e =>
        rw [adjustTubes_watch_err c t tss c1 cmds1 w2 cmds2 e hu hw]
        exact hb
      | none =>
        rcases hig : ignoreLoop w2 tss.Name with ⟨w3, cmds3⟩
        rw [adjustTubes_ok c t tss c1 cmds1 w2 cmds2 w3 cmds3 hu hw hig]
        exact hb

theorem adjustTubes_no_target (c : Conn) (t : Option Tube) (ts : Option TubeSet) :
    ∀ x ∈ (adjustTubes c t ts).2.1, isTargetCmd x = false := by
  rcases hu : useStep c t with ⟨c1, cmds1, err1⟩
  have h1 : ∀ x ∈ cmds1, isTargetCmd x = false := by
    intro x hx
    apply useStep_no_target c t
    rw [hu]
    exact hx
  cases err1 with
  | some e =>
    rw [adjustTubes_useStep_err c t ts (by rw [hu]; rfl), hu]
    exact h1
  | none =>
    cases ts with
    | none =>
      rw [adjustTubes_ts_none, hu]
      exact h1
    | some tss =>
      rcases hw : watchLoop c1.watched tss.Name with ⟨w2, cmds2, err2⟩
      have h2 : ∀ x ∈ cmds2, isTargetCmd x = false := by
        intro x hx
        apply watchLoop_no_target tss.Name c1.watched
        rw [hw]
        exact hx
      cases err2 with
      | some e =>
        rw [adjustTubes_watch_err c t tss c1 cmds1 w2 cmds2 e hu hw]
        intro x hx
        rcases List.mem_append.mp hx with hx1 | hx2
        · exact h1 x hx1
        · exact h2 x hx2
      | none =>
        rcases hig : ignoreLoop w2 tss.Name with ⟨w3, cmds3⟩
        have higq := ignoreLoop_eq w2 tss.Name
        rw [hig, Prod.mk.injEq] at higq
        have h3 : ∀ x ∈ cmds3, isTargetCmd x = false := by
          intro x hx
          rw [higq.2] at hx
          obtain ⟨nm, _, hnm⟩ := List.mem_map.mp hx
          rw [← hnm]
          rfl
        rw [adjustTubes_ok c t tss c1 cmds1 w2 cmds2 w3 cmds3 hu hw hig]
        intro x hx
        rcases List.mem_append.mp hx with hx12 | hx3
        · rcases List.mem_append.mp hx12 with hx1 | hx2
          · exact h1 x hx1
          · exact h2 x hx2
        · exact h3 x hx3

theorem adjustTubes_apply (c : Conn) (t : Option Tube) (ts : Option TubeSet) :
    applyCmds (c.used, c.watched) (adjustTubes c t ts).2.1 =
      ((adjustTubes c t ts).1.used, (adjustTubes c t ts).1.watched) := by
  rcases hu : useStep c t with ⟨c1, cmds1, err1⟩
  have hap1 : applyCmds (c.used, c.watched) cmds1 = (c1.used, c1.watched) := by
    have h := useStep_apply c t
    rw [hu] at h
    exact h
  cases err1 with
  | some e =>
    rw [adjustTubes_useStep_err c t ts (by rw [hu]; rfl), hu]
    exact hap1
  | none =>
    cases ts with
    | none =>
      rw [adjustTubes_ts_none, hu]
      exact hap1
    | some tss =>
      rcases hw : watchLoop c1.watched tss.Name with ⟨w2, cmds2, err2⟩
      have hap2 : applyCmds (c1.used, c1.watched) cmds2 = (c1.used, w2) := by
        have h := watchLoop_apply tss.Name c1.watched c1.used
        rw [hw] at h
        exact h
      cases err2 with
      | some e =>
        rw [adjustTubes_watch_err c t tss c1 cmds1 w2 cmds2 e hu hw]
        rw [applyCmds_append, hap1, hap2]
      | none =>
        rcases hig : ignoreLoop w2 tss.Name with ⟨w3, cmds3⟩
        have higq := ignoreLoop_eq w2 tss.Name
        rw [hig, Prod.mk.injEq] at higq
        obtain ⟨hw3eq, hcmds3eq⟩ := higq
        have hap3 : applyCmds (c1.used, w2) cmds3 = (c1.used, w3) := by
          rw [hcmds3eq, applyCmds_ignores]
          rw [Prod.mk.injEq]
          refine ⟨rfl, ?_⟩
          rw [hw3eq]
          apply List.filter_congr
          intro a ha
          apply decide_eq_decide.mpr
          constructor
          · intro hnot
            by_contra hT
            exact hnot (List.mem_filter.mpr ⟨ha, by simpa using hT⟩)
          · intro hT hmem
            have hcontra := (List.mem_filter.mp hmem).2
            simp at hcontra
            exact hcontra hT
        rw [adjustTubes_ok c t tss c1 cmds1 w2 cmds2 w3 cmds3 hu hw hig]
        rw [applyCmds_append, applyCmds_append, hap1, hap2, hap3]

/-- C1 counterexample: with a fresh connection, requesting used queue
`foo` together with an intended watched set containing the invalid empty
name makes the command call fail validation, yet the remembered used
name has already been changed — session state is not left exactly as it
was. -/
theorem session_state_partially_committed :
    (cmdTube newConn (some { Name := bytes ("foo") }) (some { Name := [[]] })
      none (bytes ("put")) [] []).2.2.isSome = true ∧
    (cmdTube newConn (some { Name := bytes ("foo") }) (some { Name := [[]] })
      none (bytes ("put")) [] []).1.used ≠ newConn.used := by decide

/-- C1 (amended): a validation failure aborts the call before the target
command line is produced — nothing is transmitted and no target line is
buffered — but reconciliation steps already performed before the failing
name stay committed: the remembered session state equals the prior state
with exactly the already-buffered reconciliation commands applied. -/
theorem cmdTube_abort (c : Conn) (t : Option Tube) (ts : Option TubeSet)
    (body : Option (List Nat)) (op tname : List Nat) (args : List Nat)
    (h : (adjustTubes c t ts).2.2.isSome = true) :
    (cmdTube c t ts body op tname args).2.1 = [] ∧
    (cmdTube c t ts body op tname args).1.buf = c.buf ++ (adjustTubes c t ts).2.1 ∧
    (∀ x ∈ (adjustTubes c t ts).2.1, isTargetCmd x = false) ∧
    ((cmdTube c t ts body op tname args).1.used,
      (cmdTube c t ts body op tname args).1.watched) =
      applyCmds (c.used, c.watched) (adjustTubes c t ts).2.1 := by
  have hbuf := adjustTubes_buf c t ts
  have happ := adjustTubes_apply c t ts
  have hnt := adjustTubes_no_target c t ts
  rcases ha : adjustTubes c t ts with ⟨c1, cmds, err⟩
  rw [ha] at h hbuf happ hnt
  cases err with
  | none => simp at h
  | some e =>
    have hct : cmdTube c t ts body op tname args =
        ({ c1 with buf := c1.buf ++ cmds }, [], some e) := by
      simp [cmdTube, ha]
    have hb2 : c1.buf = c.buf := hbuf
    refine ⟨by rw [hct], ?_, hnt, ?_⟩
    · rw [hct]
      simp [hb2]
    · rw [hct]
      exact happ.symm

/-- Witness for the amended C1 at the concrete failing call. -/
theorem cmdTube_abort_witness :
    (cmdTube newConn (some { Name := bytes ("foo") }) (some { Name := [[]] })
      none (bytes ("put")) [] []).2.1 = [] ∧
    ((cmdTube newConn (some { Name := bytes ("foo") }) (some { Name := [[]] })
        none (bytes ("put")) [] []).1.used,
      (cmdTube newConn (some { Name := bytes ("foo") }) (some { Name := [[]] })
        none (bytes ("put")) [] []).1.watched) =
      applyCmds (newConn.used, newConn.watched)
        (adjustTubes newConn (some { Name := bytes ("foo") })
          (some { Name := [[]] })).2.1 := by
  have h := cmdTube_abort newConn (some { Name := bytes ("foo") }) (some { Name := [[]] })
    none (bytes ("put")) [] [] (by decide)
  exact ⟨h.1, h.2.2.2⟩

theorem checkName_ok_ne_nil (s : List Nat) (h : checkName s = none) : s ≠ [] := by
  intro hs
  subst hs
  simp [checkName] at h

theorem useStep_used_ne (c : Conn) (t : Option Tube) (h : c.used ≠ []) :
    (useStep c t).1.used ≠ [] := by
  cases t with
  | none => exact h
  | some tu =>
    by_cases hne : tu.Name = c.used
    · simpa [useStep, hne] using h
    · cases hcn : checkName tu.Name with
      | some e => simpa [useStep, hne, hcn] using h
      | none => simpa [useStep, hne, hcn] using checkName_ok_ne_nil tu.Name hcn

theorem adjustTubes_used_ne (c : Conn) (t : Option Tube) (ts : Option TubeSet)
    (h : c.used ≠ []) : (adjustTubes c t ts).1.used ≠ [] := by
  rcases hu : useStep c t with ⟨c1, cmds1, err1⟩
  have h1 : c1.used ≠ [] := by
    have := useStep_used_ne c t h
    rwa [hu] at this
  cases err1 with
  | some e =>
    rw [adjustTubes_useStep_err c t ts (by rw [hu]; rfl), hu]
    exact h1
  | none =>
    cases ts with
    | none =>
      rw [adjustTubes_ts_none, hu]
      exact h1
    | some tss =>
      rcases hw : watchLoop c1.watched tss.Name with ⟨w2, cmds2, err2⟩
      cases err2 with
      | some e =>
        rw [adjustTubes_watch_err c t tss c1 cmds1 w2 cmds2 e hu hw]
        exact h1
      | none =>
        rcases hig : ignoreLoop w2 tss.Name with ⟨w3, cmds3⟩
        rw [adjustTubes_ok c t tss c1 cmds1 w2 cmds2 w3 cmds3 hu hw hig]
        exact h1

theorem adjustTubes_watched_ne (c : Conn) (t : Option Tube) (ts : Option TubeSet)
    (h : c.watched ≠ []) (hts : ∀ tss, ts = some tss → tss.Name ≠ []) :
    (adjustTubes c t ts).1.watched ≠ [] := by
  rcases hu : useStep c t with ⟨c1, cmds1, err1⟩
  have h1 : c1.watched ≠ [] := by
    have hwc : c1.watched = c.watched := by rw [← useStep_watched c t, hu]
    rwa [hwc]
  cases err1 with
  | some e =>
    rw [adjustTubes_useStep_err c t ts (by rw [hu]; rfl), hu]
    exact h1
  | none =>
    cases ts with
    | none =>
      rw [adjustTubes_ts_none, hu]
      exact h1
    | some tss =>
      rcases hw : watchLoop c1.watched tss.Name with ⟨w2, cmds2, err2⟩
      have hsup : ∃ ext, w2 = c1.watched ++ ext := by
        have := watchLoop_sup tss.Name c1.watched
        rw [hw] at this
        simpa using this
      have hw2ne : w2 ≠ [] := by
        obtain ⟨ext, hext⟩ := hsup
        rw [hext]
        intro hnil
        rw [List.append_eq_nil] at hnil
        exact h1 hnil.1
      cases err2 with
      | some e =>
        rw [adjustTubes_watch_err c t tss c1 cmds1 w2 cmds2 e hu hw]
        exact hw2ne
      | none =>
        rcases hig : ignoreLoop w2 tss.Name with ⟨w3, cmds3⟩
        rw [adjustTubes_ok c t tss c1 cmds1 w2 cmds2 w3 cmds3 hu hw hig]
        have hTne : tss.Name ≠ [] := hts tss rfl
        obtain ⟨t0, ht0⟩ := List.exists_mem_of_ne_nil tss.Name hTne
        have ht0w2 : t0 ∈ w2 := by
          have := watchLoop_ok_mem tss.Name c1.watched (by rw [hw]) t0 ht0
          rwa [hw] at this
        have higq := ignoreLoop_eq w2 tss.Name
        rw [hig, Prod.mk.injEq] at higq
        have ht0w3 : t0 ∈ w3 := by
          rw [higq.1]
          exact List.mem_filter.mpr ⟨ht0w2, by simpa using ht0⟩
        exact List.ne_nil_of_mem ht0w3

theorem cmdTube_sess (c : Conn) (t : Option Tube) (ts : Option TubeSet)
    (body : Option (List Nat)) (op tname : List Nat) (args : List Nat) :
    (cmdTube c t ts body op tname args).1.used = (adjustTubes c t ts).1.used ∧
    (cmdTube c t ts body op tname args).1.watched = (adjustTubes c t ts).1.watched := by
  rcases ha : adjustTubes c t ts with ⟨c1, cmds, err⟩
  cases err <;> simp [cmdTube, ha]

/-- C3 counterexample: the state reached by one command call whose
intended watched set is empty has an empty remembered watched set, so
the claimed invariant fails on a reachable state. -/
theorem reachable_watched_empty :
    Reachable (cmdTube newConn none (some { Name := [] }) none [] [] []).1 ∧
    (cmdTube newConn none (some { Name := [] }) none [] [] []).1.watched = [] :=
  ⟨Reachable.step newConn none (some { Name := [] }) none [] [] [] Reachable.init,
    by decide⟩

/-- C3 (amended): in every connection state reachable from `NewConn` by
command calls whose supplied intended watched sets are non-empty, the
remembered used name is non-empty and the remembered watched set is
non-empty.  (Reconciling against an empty intended watched set empties
the watched set, so the restriction is necessary.) -/
theorem reachableNE_invariant : ∀ c : Conn, ReachableNE c →
    c.used ≠ [] ∧ c.watched ≠ [] := by
  intro c h
  induction h with
  | init => exact ⟨by decide, by decide⟩
  | step c0 t ts body op tname args hr hts ih =>
    obtain ⟨hu, hw⟩ := ih
    obtain ⟨hcu, hcw⟩ := cmdTube_sess c0 t ts body op tname args
    constructor
    · rw [hcu]
      exact adjustTubes_used_ne c0 t ts hu
    · rw [hcw]
      exact adjustTubes_watched_ne c0 t ts hw hts

/-- Witness for the amended C3 after one watched-set change. -/
theorem reachableNE_invariant_witness :
    (cmdTube newConn none (some { Name := [bytes ("foo")] }) none [] [] []).1.used ≠ [] ∧
    (cmdTube newConn none (some { Name := [bytes ("foo")] }) none [] [] []).1.watched ≠ [] :=
  reachableNE_invariant _
    (ReachableNE.step newConn none (some { Name := [bytes ("foo")] }) none [] [] []
      ReachableNE.init (by intro tss hteq; cases hteq; decide))

end Beanstalk
